import Mathlib

/-!
Shallow embedding of `src/binomial_options.py` (CRR binomial option pricing
with a Black-Scholes reference) over the real numbers.

The numpy matrices of size (M+1) x (M+1) are modelled as total functions
from (row, column) to ℝ; the program only reads and writes indices inside
the allocated square, so only those cells are relevant.  In-place writes
`A[j, t] = v` become functional updates, and the nested `for` loops become
left folds over the same index ranges the Python code iterates.
-/

/-- Matrix entries, indexed (row j, column t). -/
abbrev Mat : Type := ℕ → ℕ → ℝ

/-- One in-place write `A[j, t] = v` of the numpy array. -/
def mwrite (A : Mat) (j t : ℕ) (v : ℝ) : Mat :=
  fun j' t' => if j' = j ∧ t' = t then v else A j' t'

/-- Up-factor `u = exp(sigma * sqrt(dt))` with `dt = T/M`, as computed in
both `getSmatrix1` (line 20) and `CRR_option_value` (line 34). -/
noncomputable def crr_u (sigma T : ℝ) (M : ℕ) : ℝ :=
  Real.exp (sigma * Real.sqrt (T / M))

/-- Down-factor `d = 1 / u`, lines 21 and 35 of the source. -/
noncomputable def crr_d (sigma T : ℝ) (M : ℕ) : ℝ :=
  1 / crr_u sigma T M

/-- Discount factor `df = exp(-r * dt)`, line 33 of the source. -/
noncomputable def crr_df (r T : ℝ) (M : ℕ) : ℝ :=
  Real.exp (-(r * (T / M)))

/-- Risk-neutral probability `q = (exp(r*dt) - d) / (u - d)`, line 36. -/
noncomputable def crr_q (r sigma T : ℝ) (M : ℕ) : ℝ :=
  (Real.exp (r * (T / M)) - crr_d sigma T M) / (crr_u sigma T M - crr_d sigma T M)

/-- One write of the price-tree inner loop: `S[j, t] = S0 * u**(t-j) * d**j`
(line 26 of the source). -/
noncomputable def swrite (S0 u d : ℝ) (t : ℕ) (B : Mat) (j : ℕ) : Mat :=
  mwrite B j t (S0 * u ^ (t - j) * d ^ j)

/-- Inner loop `for j in range(t + 1)` of `getSmatrix1` (lines 25-26). -/
noncomputable def scol (S0 u d : ℝ) (A : Mat) (t : ℕ) : Mat :=
  (List.range (t + 1)).foldl (swrite S0 u d t) A

/-- Binomial stock price tree, `getSmatrix1` of the source (lines 18-27):
start from `np.zeros((M+1, M+1))` followed by the slice write `S[0, :] = S0`
(rows other than 0 hold the zero sentinel, row 0 holds S0), then run the
nested loops writing `S[j, t] = S0 * u**(t-j) * d**j` for `t` in
`range(M+1)` and `j` in `range(t+1)`. -/
noncomputable def getSmatrix1 (S0 sigma T : ℝ) (M : ℕ) : Mat :=
  (List.range (M + 1)).foldl
    (scol S0 (crr_u sigma T M) (crr_d sigma T M))
    (fun j _t => if j = 0 then S0 else 0)

/-- Shape-indexed view of the price tree: `getSmatrix1` returns an
(M+1) x (M+1) numpy array. -/
noncomputable def getSmatrix1Fin (S0 sigma T : ℝ) (M : ℕ) :
    Matrix (Fin (M + 1)) (Fin (M + 1)) ℝ :=
  Matrix.of fun j t => getSmatrix1 S0 sigma T M j t

/-- One write of the backward-induction inner loop (line 50 of the source):
`V[j, t] = (q * V[j, t+1] + (1 - q) * V[j+1, t+1]) * df`. -/
noncomputable def bstep (q df : ℝ) (t : ℕ) (B : Mat) (j : ℕ) : Mat :=
  mwrite B j t ((q * B j (t + 1) + (1 - q) * B (j + 1) (t + 1)) * df)

/-- Inner loop `for j in range(t + 1)` of the backward induction
(lines 49-50). -/
noncomputable def bcol (q df : ℝ) (A : Mat) (t : ℕ) : Mat :=
  (List.range (t + 1)).foldl (bstep q df t) A

/-- Backward induction `for t in range(M - 1, -1, -1)` (lines 48-50): the
columns M-1, M-2, ..., 0 are processed in that order, which is
`(List.range M).reverse`. -/
noncomputable def backInd (q df : ℝ) (M : ℕ) (V : Mat) : Mat :=
  ((List.range M).reverse).foldl (bcol q df) V

/-- Elementwise payoff initialization (lines 42-45 of the source):
`V = np.maximum(S - K, 0)` when `option_type == 'C'`, otherwise
`V = np.maximum(K - S, 0)`. -/
noncomputable def payoffMat (S0 K sigma T : ℝ) (option_type : Char) (M : ℕ) : Mat :=
  fun j t =>
    if option_type = 'C' then max (getSmatrix1 S0 sigma T M j t - K) 0
    else max (K - getSmatrix1 S0 sigma T M j t) 0

/-- CRR option valuation, `CRR_option_value` of the source (lines 31-52):
derive df, u, d, q from the parameters, build the stock tree, apply the
terminal payoff elementwise, run backward induction, and return the pair
`(V[0, 0], V)`. -/
noncomputable def CRR_option_value (S0 K T r sigma : ℝ) (option_type : Char)
    (M : ℕ) : ℝ × Mat :=
  let V := backInd (crr_q r sigma T M) (crr_df r T M) M
    (payoffMat S0 K sigma T option_type M)
  (V 0 0, V)

/-- Cumulative distribution function of the standard normal law, the
mathematical content of `scipy.stats.norm.cdf` used on line 12. -/
noncomputable def Phi (x : ℝ) : ℝ :=
  ProbabilityTheory.cdf (ProbabilityTheory.gaussianReal 0 1) x

/-- Black-Scholes reference prices, `bs` of the source (lines 9-14):
`d1 = (log(S0/K) + (r + 0.5*sigma**2)*T) / (sigma*sqrt(T))`,
`d2 = d1 - sigma*sqrt(T)`, call from the closed form, put from put-call
parity off the computed call. -/
noncomputable def bs (S0 K T r sigma : ℝ) : ℝ × ℝ :=
  let d1 := (Real.log (S0 / K) + (r + 0.5 * sigma ^ 2) * T) / (sigma * Real.sqrt T)
  let d2 := d1 - sigma * Real.sqrt T
  let c := S0 * Phi d1 - K * Real.exp (-(r * T)) * Phi d2
  let p := c + K * Real.exp (-(r * T)) - S0
  (c, p)

/-- Python `range(start, stop, step)` for a positive step. -/
def pyRange (start stop step : ℕ) : List ℕ :=
  List.range' start ((stop - start + step - 1) / step) step

/-- Step counts sampled by the convergence plot (lines 94-95 of the source):
`max_steps = max(10, M)` then `steps = range(10, max_steps + 10, 10)`. -/
def convSteps (M : ℕ) : List ℕ :=
  pyRange 10 (max 10 M + 10) 10

/-- Values of the convergence plot (line 101 of the source):
`CRR_values = [CRR_option_value(S0, K, T, r, sigma, option_type, m)[0] for m in steps]`. -/
noncomputable def CRR_values (S0 K T r sigma : ℝ) (option_type : Char)
    (M : ℕ) : List ℝ :=
  (convSteps M).map (fun m => (CRR_option_value S0 K T r sigma option_type m).1)

/-! Readout lemmas for the loop folds. -/

theorem foldl_swrite_eq (S0 u d : ℝ) (t : ℕ) (l : List ℕ) :
    ∀ (A : Mat) (j t' : ℕ),
      (l.foldl (swrite S0 u d t) A) j t' =
        if j ∈ l ∧ t' = t then S0 * u ^ (t - j) * d ^ j else A j t' := by
  induction l with
  | nil => intro A j t'; simp
  | cons a l ih =>
      intro A j t'
      rw [List.foldl_cons, ih]
      simp only [List.mem_cons]
      unfold swrite mwrite
      by_cases ht : t' = t
      · subst ht
        by_cases hl : j ∈ l
        · simp [hl]
        · by_cases ha : j = a
          · subst ha; simp [hl]
          · simp [hl, ha]
      · simp [ht]

theorem scol_eq (S0 u d : ℝ) (A : Mat) (t j t' : ℕ) :
    scol S0 u d A t j t' =
      if j ≤ t ∧ t' = t then S0 * u ^ (t - j) * d ^ j else A j t' := by
  unfold scol
  rw [foldl_swrite_eq]
  simp [Nat.lt_succ_iff]

theorem foldl_scol_eq (S0 u d : ℝ) (l : List ℕ) :
    ∀ (A : Mat) (j t : ℕ),
      (l.foldl (scol S0 u d) A) j t =
        if t ∈ l ∧ j ≤ t then S0 * u ^ (t - j) * d ^ j else A j t := by
  induction l with
  | nil => intro A j t; simp
  | cons a l ih =>
      intro A j t
      rw [List.foldl_cons, ih]
      simp only [List.mem_cons]
      by_cases h1 : t ∈ l ∧ j ≤ t
      · simp [h1, h1.1, h1.2]
      · rw [if_neg h1]
        rw [scol_eq]
        by_cases ha : t = a
        · subst ha
          by_cases hj : j ≤ t
          · simp [hj, h1]
          · simp [hj]
        · have : ¬(j ≤ a ∧ t = a) := fun hc => ha hc.2
          rw [if_neg this]
          have : ((t = a ∨ t ∈ l) ∧ j ≤ t) ↔ (t ∈ l ∧ j ≤ t) := by
            constructor
            · rintro ⟨hor, hj⟩
              rcases hor with h | h
              · exact absurd h ha
              · exact ⟨h, hj⟩
            · rintro ⟨hm, hj⟩; exact ⟨Or.inr hm, hj⟩
          rw [if_congr this rfl rfl, if_neg h1]

theorem getSmatrix1_eq (S0 sigma T : ℝ) (M : ℕ) (j t : ℕ) :
    getSmatrix1 S0 sigma T M j t =
      if t ≤ M ∧ j ≤ t then
        S0 * crr_u sigma T M ^ (t - j) * crr_d sigma T M ^ j
      else if j = 0 then S0 else 0 := by
  unfold getSmatrix1
  rw [foldl_scol_eq]
  simp [Nat.lt_succ_iff]

theorem foldl_bstep_eq (q df : ℝ) (t : ℕ) (l : List ℕ) :
    ∀ (A : Mat) (j t' : ℕ),
      (l.foldl (bstep q df t) A) j t' =
        if j ∈ l ∧ t' = t then
          (q * A j (t + 1) + (1 - q) * A (j + 1) (t + 1)) * df
        else A j t' := by
  induction l with
  | nil => intro A j t'; simp
  | cons a l ih =>
      intro A j t'
      rw [List.foldl_cons, ih]
      simp only [List.mem_cons]
      have hread : ∀ x : ℕ, bstep q df t A a x (t + 1) = A x (t + 1) := by
        intro x
        unfold bstep mwrite
        simp [Nat.succ_ne_self t]
      rw [hread, hread]
      by_cases ht : t' = t
      · subst ht
        by_cases hl : j ∈ l
        · simp [hl]
        · by_cases ha : j = a
          · subst ha
            unfold bstep mwrite
            simp [hl]
          · unfold bstep mwrite
            simp [hl, ha]
      · unfold bstep mwrite
        simp [ht]

theorem bcol_eq (q df : ℝ) (A : Mat) (t j t' : ℕ) :
    bcol q df A t j t' =
      if j ≤ t ∧ t' = t then
        (q * A j (t + 1) + (1 - q) * A (j + 1) (t + 1)) * df
      else A j t' := by
  unfold bcol
  rw [foldl_bstep_eq]
  simp [Nat.lt_succ_iff]

theorem foldl_bcol_frame (q df : ℝ) (l : List ℕ) :
    ∀ (A : Mat) (j t : ℕ), (∀ a ∈ l, ¬(t = a ∧ j ≤ a)) →
      (l.foldl (bcol q df) A) j t = A j t := by
  induction l with
  | nil => intro A j t _; rfl
  | cons a l ih =>
      intro A j t h
      rw [List.foldl_cons, ih _ _ _ (fun b hb => h b (List.mem_cons_of_mem a hb))]
      rw [bcol_eq]
      have : ¬(j ≤ a ∧ t = a) := fun hc => h a (List.mem_cons_self a l) ⟨hc.2, hc.1⟩
      rw [if_neg this]

theorem backInd_frame (q df : ℝ) (M : ℕ) (V : Mat) (j t : ℕ)
    (h : ¬(j ≤ t ∧ t < M)) : backInd q df M V j t = V j t := by
  unfold backInd
  apply foldl_bcol_frame
  intro a ha hc
  rw [List.mem_reverse, List.mem_range] at ha
  exact h ⟨hc.1 ▸ hc.2, hc.1 ▸ ha⟩

theorem backInd_rec (q df : ℝ) (M : ℕ) (V : Mat) (j t : ℕ)
    (hjt : j ≤ t) (htM : t < M) :
    backInd q df M V j t =
      (q * backInd q df M V j (t + 1) +
        (1 - q) * backInd q df M V (j + 1) (t + 1)) * df := by
  have hsplit : (List.range M).reverse =
      (List.range' (t + 1) (M - (t + 1))).reverse ++ (t :: (List.range t).reverse) := by
    have h1 : List.range M = List.range (t + 1) ++ List.range' (t + 1) (M - (t + 1)) := by
      rw [List.range_eq_range']
      have := List.range'_append 0 (t + 1) (M - (t + 1)) 1
      simp only [Nat.one_mul, Nat.zero_add] at this
      rw [← List.range_eq_range'] at this
      rw [this]
      congr 1
      omega
    rw [h1, List.reverse_append, List.range_succ, List.reverse_append]
    simp
  unfold backInd
  rw [hsplit, List.foldl_append, List.foldl_cons]
  set B : Mat := ((List.range' (t + 1) (M - (t + 1))).reverse).foldl (bcol q df) V with hB
  have hlow : ∀ x ∈ (List.range t).reverse, x < t := by
    intro x hx
    rw [List.mem_reverse, List.mem_range] at hx
    exact hx
  have hout : ∀ (j' t' : ℕ), t ≤ t' →
      (((List.range t).reverse).foldl (bcol q df) (bcol q df B t)) j' t' =
        bcol q df B t j' t' := by
    intro j' t' ht'
    apply foldl_bcol_frame
    intro a ha hc
    exact absurd (hc.1 ▸ ht') (Nat.not_le_of_lt (hlow a ha))
  rw [hout j t (Nat.le_refl t), hout j (t + 1) (Nat.le_succ t),
      hout (j + 1) (t + 1) (Nat.le_succ t)]
  rw [bcol_eq, bcol_eq, bcol_eq]
  rw [if_pos ⟨hjt, rfl⟩]
  have h1 : ¬(j ≤ t ∧ t + 1 = t) := fun hc => Nat.succ_ne_self t hc.2
  have h2 : ¬(j + 1 ≤ t ∧ t + 1 = t) := fun hc => Nat.succ_ne_self t hc.2
  rw [if_neg h1, if_neg h2]

theorem backInd_congr_aux (q df : ℝ) (M : ℕ) (V V' : Mat)
    (h : ∀ j t, j ≤ t → t ≤ M → V j t = V' j t) :
    ∀ k j t, j ≤ t → t ≤ M → M - t ≤ k →
      backInd q df M V j t = backInd q df M V' j t := by
  intro k
  induction k with
  | zero =>
      intro j t hjt htM hk
      have ht : t = M := by omega
      have hnot : ¬(j ≤ t ∧ t < M) := fun hc => absurd hc.2 (by omega)
      rw [backInd_frame q df M V j t hnot, backInd_frame q df M V' j t hnot]
      exact h j t hjt htM
  | succ k ih =>
      intro j t hjt htM hk
      by_cases htM' : t = M
      · have hnot : ¬(j ≤ t ∧ t < M) := fun hc => absurd hc.2 (by omega)
        rw [backInd_frame q df M V j t hnot, backInd_frame q df M V' j t hnot]
        exact h j t hjt htM
      · have htlt : t < M := Nat.lt_of_le_of_ne htM htM'
        rw [backInd_rec q df M V j t hjt htlt, backInd_rec q df M V' j t hjt htlt]
        rw [ih j (t + 1) (Nat.le_succ_of_le hjt) htlt (by omega),
            ih (j + 1) (t + 1) (Nat.succ_le_succ hjt) htlt (by omega)]

theorem backInd_congr_tri (q df : ℝ) (M : ℕ) (V V' : Mat)
    (h : ∀ j t, j ≤ t → t ≤ M → V j t = V' j t)
    (j t : ℕ) (hjt : j ≤ t) (htM : t ≤ M) :
    backInd q df M V j t = backInd q df M V' j t :=
  backInd_congr_aux q df M V V' h M j t hjt htM (Nat.sub_le M t)

theorem CRR_snd (S0 K T r sigma : ℝ) (option_type : Char) (M : ℕ) :
    (CRR_option_value S0 K T r sigma option_type M).2 =
      backInd (crr_q r sigma T M) (crr_df r T M) M
        (payoffMat S0 K sigma T option_type M) := rfl

theorem CRR_fst (S0 K T r sigma : ℝ) (option_type : Char) (M : ℕ) :
    (CRR_option_value S0 K T r sigma option_type M).1 =
      (CRR_option_value S0 K T r sigma option_type M).2 0 0 := rfl

/-- C3: for S0 > 0, sigma > 0, T > 0 and M >= 1, `getSmatrix1` returns an
(M+1) x (M+1) matrix whose cell (j, t), for 0 <= j <= t <= M, equals
S0 * u^(t-j) * d^j with dt = T/M, u = exp(sigma*sqrt(dt)) and d = 1/u. -/
theorem getSmatrix1_cell_values (S0 sigma T : ℝ) (M : ℕ)
    (hS0 : 0 < S0) (hsig : 0 < sigma) (hT : 0 < T) (hM : 1 ≤ M)
    (j t : Fin (M + 1)) (hjt : (j : ℕ) ≤ (t : ℕ)) :
    getSmatrix1Fin S0 sigma T M j t =
      S0 * Real.exp (sigma * Real.sqrt (T / M)) ^ ((t : ℕ) - (j : ℕ)) *
        (1 / Real.exp (sigma * Real.sqrt (T / M))) ^ (j : ℕ) := by
  have htM : (t : ℕ) ≤ M := Nat.lt_succ_iff.mp t.isLt
  show getSmatrix1 S0 sigma T M j t = _
  rw [getSmatrix1_eq, if_pos ⟨htM, hjt⟩]
  rfl

theorem getSmatrix1_cell_values_witness :
    (0 : ℝ) < 2 ∧ (0 : ℝ) < 1 ∧ (0 : ℝ) < 1 ∧ 1 ≤ 1 ∧
      ((0 : Fin 2) : ℕ) ≤ ((1 : Fin 2) : ℕ) ∧
      getSmatrix1Fin 2 1 1 1 0 1 =
        2 * Real.exp (1 * Real.sqrt (1 / (1 : ℕ))) ^
            (((1 : Fin 2) : ℕ) - ((0 : Fin 2) : ℕ)) *
          (1 / Real.exp (1 * Real.sqrt (1 / (1 : ℕ)))) ^ ((0 : Fin 2) : ℕ) :=
  ⟨by norm_num, by norm_num, by norm_num, le_refl 1, by decide,
    getSmatrix1_cell_values 2 1 1 1 (by norm_num) (by norm_num) (by norm_num)
      (le_refl 1) 0 1 (by decide)⟩

/-- C6: for valid parameters the up-factor u = exp(sigma*sqrt(T/M)) and the
down-factor d = 1/u shared by the tree builder and the CRR valuator satisfy
u * d = 1 exactly over the reals, so the tree recombines. -/
theorem crr_recombination (sigma T : ℝ) (M : ℕ)
    (hsig : 0 < sigma) (hT : 0 < T) (hM : 1 ≤ M) :
    crr_u sigma T M * crr_d sigma T M = 1 := by
  unfold crr_d
  rw [mul_one_div]
  exact div_self (Real.exp_ne_zero _)

theorem crr_recombination_witness :
    (0 : ℝ) < 1 ∧ (0 : ℝ) < 1 ∧ 1 ≤ 1 ∧ crr_u 1 1 1 * crr_d 1 1 1 = 1 :=
  ⟨by norm_num, by norm_num, le_refl 1,
    crr_recombination 1 1 1 (by norm_num) (by norm_num) (le_refl 1)⟩

/-- C5: the pair (call, put) returned by `bs` satisfies
call - put = S0 - K*exp(-r*T) exactly, because put is built from the
computed call via put-call parity. -/
theorem bs_put_call_parity (S0 K T r sigma : ℝ) :
    (bs S0 K T r sigma).1 - (bs S0 K T r sigma).2 =
      S0 - K * Real.exp (-(r * T)) := by
  simp only [bs]
  ring

/-- C4: for S0 > 0, K > 0, T > 0, sigma > 0 and any rate r, the call price
returned by `bs` equals S0*Phi(d1) - K*exp(-r*T)*Phi(d2) with
d1 = (ln(S0/K) + (r + sigma^2/2)*T) / (sigma*sqrt(T)) and
d2 = d1 - sigma*sqrt(T), Phi the standard normal CDF. -/
theorem bs_call_formula (S0 K T r sigma : ℝ)
    (hS0 : 0 < S0) (hK : 0 < K) (hT : 0 < T) (hsig : 0 < sigma) :
    (bs S0 K T r sigma).1 =
      S0 * Phi ((Real.log (S0 / K) + (r + sigma ^ 2 / 2) * T) / (sigma * Real.sqrt T)) -
        K * Real.exp (-(r * T)) *
          Phi ((Real.log (S0 / K) + (r + sigma ^ 2 / 2) * T) / (sigma * Real.sqrt T) -
            sigma * Real.sqrt T) := by
  have h : (Real.log (S0 / K) + (r + 0.5 * sigma ^ 2) * T) / (sigma * Real.sqrt T) =
      (Real.log (S0 / K) + (r + sigma ^ 2 / 2) * T) / (sigma * Real.sqrt T) := by
    ring_nf
  simp only [bs]
  rw [h]

theorem bs_call_formula_witness :
    (0 : ℝ) < 1 ∧ (0 : ℝ) < 1 ∧ (0 : ℝ) < 1 ∧ (0 : ℝ) < 1 ∧
      (bs 1 1 1 0 1).1 =
        1 * Phi ((Real.log (1 / 1) + (0 + 1 ^ 2 / 2) * 1) / (1 * Real.sqrt 1)) -
          1 * Real.exp (-(0 * 1)) *
            Phi ((Real.log (1 / 1) + (0 + 1 ^ 2 / 2) * 1) / (1 * Real.sqrt 1) -
              1 * Real.sqrt 1) :=
  ⟨by norm_num, by norm_num, by norm_num, by norm_num,
    bs_call_formula 1 1 1 0 1 (by norm_num) (by norm_num) (by norm_num) (by norm_num)⟩

/-- C1: for every valid parameter set and option kind, the value lattice
returned by `CRR_option_value` satisfies, for 0 <= j <= t <= M-1,
value(j, t) = df * (q * value(j, t+1) + (1-q) * value(j+1, t+1)) with
dt = T/M, df = exp(-r*dt), u = exp(sigma*sqrt(dt)), d = 1/u and
q = (exp(r*dt) - d)/(u - d), and the returned scalar equals value(0, 0). -/
theorem CRR_backward_recurrence (S0 K T r sigma : ℝ) (option_type : Char) (M : ℕ)
    (hS0 : 0 < S0) (hK : 0 < K) (hT : 0 < T) (hsig : 0 < sigma) (hM : 1 ≤ M)
    (j t : ℕ) (hjt : j ≤ t) (htM : t ≤ M - 1) :
    ((CRR_option_value S0 K T r sigma option_type M).2 j t =
      Real.exp (-(r * (T / M))) *
        ((Real.exp (r * (T / M)) - 1 / Real.exp (sigma * Real.sqrt (T / M))) /
            (Real.exp (sigma * Real.sqrt (T / M)) -
              1 / Real.exp (sigma * Real.sqrt (T / M))) *
          (CRR_option_value S0 K T r sigma option_type M).2 j (t + 1) +
        (1 - (Real.exp (r * (T / M)) - 1 / Real.exp (sigma * Real.sqrt (T / M))) /
            (Real.exp (sigma * Real.sqrt (T / M)) -
              1 / Real.exp (sigma * Real.sqrt (T / M)))) *
          (CRR_option_value S0 K T r sigma option_type M).2 (j + 1) (t + 1))) ∧
    (CRR_option_value S0 K T r sigma option_type M).1 =
      (CRR_option_value S0 K T r sigma option_type M).2 0 0 := by
  have htlt : t < M := by omega
  have hq : crr_q r sigma T M =
      (Real.exp (r * (T / M)) - 1 / Real.exp (sigma * Real.sqrt (T / M))) /
        (Real.exp (sigma * Real.sqrt (T / M)) -
          1 / Real.exp (sigma * Real.sqrt (T / M))) := rfl
  have hdf : crr_df r T M = Real.exp (-(r * (T / M))) := rfl
  constructor
  · rw [← hq, ← hdf, CRR_snd,
      backInd_rec (crr_q r sigma T M) (crr_df r T M) M
        (payoffMat S0 K sigma T option_type M) j t hjt htlt]
    ring
  · rfl

theorem CRR_backward_recurrence_witness :
    (0 : ℝ) < 36 ∧ (0 : ℝ) < 40 ∧ (0 : ℝ) < 1 ∧ (0 : ℝ) < 1 ∧ 1 ≤ 1 ∧
      0 ≤ 0 ∧ 0 ≤ 1 - 1 ∧
      (((CRR_option_value 36 40 1 0 1 'P' 1).2 0 0 =
        Real.exp (-(0 * ((1 : ℝ) / ((1 : ℕ) : ℝ)))) *
          ((Real.exp (0 * ((1 : ℝ) / ((1 : ℕ) : ℝ))) -
              1 / Real.exp (1 * Real.sqrt ((1 : ℝ) / ((1 : ℕ) : ℝ)))) /
              (Real.exp (1 * Real.sqrt ((1 : ℝ) / ((1 : ℕ) : ℝ))) -
                1 / Real.exp (1 * Real.sqrt ((1 : ℝ) / ((1 : ℕ) : ℝ)))) *
            (CRR_option_value 36 40 1 0 1 'P' 1).2 0 (0 + 1) +
          (1 - (Real.exp (0 * ((1 : ℝ) / ((1 : ℕ) : ℝ))) -
              1 / Real.exp (1 * Real.sqrt ((1 : ℝ) / ((1 : ℕ) : ℝ)))) /
              (Real.exp (1 * Real.sqrt ((1 : ℝ) / ((1 : ℕ) : ℝ))) -
                1 / Real.exp (1 * Real.sqrt ((1 : ℝ) / ((1 : ℕ) : ℝ))))) *
            (CRR_option_value 36 40 1 0 1 'P' 1).2 (0 + 1) (0 + 1))) ∧
      (CRR_option_value 36 40 1 0 1 'P' 1).1 =
        (CRR_option_value 36 40 1 0 1 'P' 1).2 0 0) :=
  ⟨by norm_num, by norm_num, by norm_num, by norm_num, le_refl 1,
    le_refl 0, by norm_num,
    CRR_backward_recurrence 36 40 1 0 1 'P' 1 (by norm_num) (by norm_num)
      (by norm_num) (by norm_num) (le_refl 1) 0 0 (le_refl 0) (by norm_num)⟩

/-- C2: the terminal column of the value lattice returned by
`CRR_option_value` holds max(price(j, M) - K, 0) for a Call and
max(K - price(j, M), 0) for a Put, for every 0 <= j <= M, where price is
the lattice built by `getSmatrix1` from the same parameters. -/
theorem CRR_terminal_payoff (S0 K T r sigma : ℝ) (M : ℕ)
    (hS0 : 0 < S0) (hK : 0 < K) (hT : 0 < T) (hsig : 0 < sigma) (hM : 1 ≤ M)
    (j : ℕ) (hj : j ≤ M) :
    (CRR_option_value S0 K T r sigma 'C' M).2 j M =
      max (getSmatrix1 S0 sigma T M j M - K) 0 ∧
    (CRR_option_value S0 K T r sigma 'P' M).2 j M =
      max (K - getSmatrix1 S0 sigma T M j M) 0 := by
  have hfr : ¬(j ≤ M ∧ M < M) := fun hc => Nat.lt_irrefl M hc.2
  constructor
  · rw [CRR_snd, backInd_frame _ _ _ _ _ _ hfr]
    unfold payoffMat
    rw [if_pos rfl]
  · rw [CRR_snd, backInd_frame _ _ _ _ _ _ hfr]
    unfold payoffMat
    rw [if_neg (by decide)]

theorem CRR_terminal_payoff_witness :
    (0 : ℝ) < 36 ∧ (0 : ℝ) < 40 ∧ (0 : ℝ) < 1 ∧ (0 : ℝ) < 1 ∧ 1 ≤ 1 ∧ 1 ≤ 1 ∧
      ((CRR_option_value 36 40 1 0 1 'C' 1).2 1 1 =
        max (getSmatrix1 36 1 1 1 1 1 - 40) 0 ∧
      (CRR_option_value 36 40 1 0 1 'P' 1).2 1 1 =
        max (40 - getSmatrix1 36 1 1 1 1 1) 0) :=
  ⟨by norm_num, by norm_num, by norm_num, by norm_num, le_refl 1, le_refl 1,
    CRR_terminal_payoff 36 40 1 0 1 1 (by norm_num) (by norm_num) (by norm_num)
      (by norm_num) (le_refl 1) 1 (le_refl 1)⟩

/-- C10: for a Put, every unused cell (j, t) with j > t of the returned
value lattice holds the constant K, because the terminal payoff is applied
to the whole matrix including the zero-sentinel cells of the price
lattice; for a Call those cells hold 0. -/
theorem CRR_unused_cells (S0 K T r sigma : ℝ) (M : ℕ)
    (hS0 : 0 < S0) (hK : 0 < K) (hT : 0 < T) (hsig : 0 < sigma) (hM : 1 ≤ M)
    (j t : ℕ) (hj : j ≤ M) (htM : t ≤ M) (htj : t < j) :
    (CRR_option_value S0 K T r sigma 'P' M).2 j t = K ∧
    (CRR_option_value S0 K T r sigma 'C' M).2 j t = 0 := by
  have hfr : ¬(j ≤ t ∧ t < M) := fun hc => absurd hc.1 (Nat.not_le_of_lt htj)
  have hS : getSmatrix1 S0 sigma T M j t = 0 := by
    rw [getSmatrix1_eq,
      if_neg (fun hc => absurd hc.2 (Nat.not_le_of_lt htj) : ¬(t ≤ M ∧ j ≤ t)),
      if_neg (by omega : ¬j = 0)]
  constructor
  · rw [CRR_snd, backInd_frame _ _ _ _ _ _ hfr]
    unfold payoffMat
    rw [if_neg (by decide), hS, sub_zero]
    exact max_eq_left hK.le
  · rw [CRR_snd, backInd_frame _ _ _ _ _ _ hfr]
    unfold payoffMat
    rw [if_pos rfl, hS, zero_sub]
    exact max_eq_right (neg_nonpos.mpr hK.le)

theorem CRR_unused_cells_witness :
    (0 : ℝ) < 36 ∧ (0 : ℝ) < 40 ∧ (0 : ℝ) < 1 ∧ (0 : ℝ) < 1 ∧ 1 ≤ 1 ∧
      1 ≤ 1 ∧ 0 ≤ 1 ∧ 0 < 1 ∧
      ((CRR_option_value 36 40 1 0 1 'P' 1).2 1 0 = 40 ∧
        (CRR_option_value 36 40 1 0 1 'C' 1).2 1 0 = 0) :=
  ⟨by norm_num, by norm_num, by norm_num, by norm_num, le_refl 1, le_refl 1,
    Nat.zero_le 1, Nat.zero_lt_one,
    CRR_unused_cells 36 40 1 0 1 1 (by norm_num) (by norm_num) (by norm_num)
      (by norm_num) (le_refl 1) 1 0 (le_refl 1) (Nat.zero_le 1) Nat.zero_lt_one⟩

/-- C9: the backward induction leaves every cell outside the written region
(j <= t <= M-1) at its terminal-payoff value, and the values it produces on
the valid triangle, in particular the returned price at (0, 0), depend only
on initial cells inside the triangle j <= t <= M: cells with j > t are
never read. -/
theorem CRR_write_read_discipline (S0 K T r sigma : ℝ) (option_type : Char)
    (M : ℕ)
    (hS0 : 0 < S0) (hK : 0 < K) (hT : 0 < T) (hsig : 0 < sigma) (hM : 1 ≤ M) :
    (∀ j t : ℕ, ¬(j ≤ t ∧ t ≤ M - 1) →
      (CRR_option_value S0 K T r sigma option_type M).2 j t =
        payoffMat S0 K sigma T option_type M j t) ∧
    (∀ V V' : Mat, (∀ j t : ℕ, j ≤ t → t ≤ M → V j t = V' j t) →
      ∀ j t : ℕ, j ≤ t → t ≤ M →
        backInd (crr_q r sigma T M) (crr_df r T M) M V j t =
          backInd (crr_q r sigma T M) (crr_df r T M) M V' j t) := by
  constructor
  · intro j t h
    rw [CRR_snd]
    exact backInd_frame _ _ _ _ _ _ (fun hc => h ⟨hc.1, by omega⟩)
  · intro V V' h j t hjt htM
    exact backInd_congr_tri _ _ _ _ _ h j t hjt htM

theorem CRR_write_read_discipline_witness :
    (0 : ℝ) < 36 ∧ (0 : ℝ) < 40 ∧ (0 : ℝ) < 1 ∧ (0 : ℝ) < 1 ∧ 1 ≤ 1 ∧
      ((∀ j t : ℕ, ¬(j ≤ t ∧ t ≤ 1 - 1) →
        (CRR_option_value 36 40 1 0 1 'P' 1).2 j t =
          payoffMat 36 40 1 1 'P' 1 j t) ∧
      (∀ V V' : Mat, (∀ j t : ℕ, j ≤ t → t ≤ 1 → V j t = V' j t) →
        ∀ j t : ℕ, j ≤ t → t ≤ 1 →
          backInd (crr_q 0 1 1 1) (crr_df 0 1 1) 1 V j t =
            backInd (crr_q 0 1 1 1) (crr_df 0 1 1) 1 V' j t)) :=
  ⟨by norm_num, by norm_num, by norm_num, by norm_num, le_refl 1,
    CRR_write_read_discipline 36 40 1 0 1 'P' 1 (by norm_num) (by norm_num)
      (by norm_num) (by norm_num) (le_refl 1)⟩

/-- C7 counterexample: at M = 10 the sampled step list is exactly [10], so
every sampled step count is strictly below max(10, M) + 10 = 20; the
largest sampled step count is 10, not at least 20 as the claim states. -/
theorem convSteps_not_reaching_bound :
    convSteps 10 = [10] ∧ ∀ s ∈ convSteps 10, s < max 10 10 + 10 := by decide

/-- C7 (amended): the convergence sampler produces the ordered step counts
10, 20, 30, ...; the largest sampled step count is at least max(10, M) and
strictly below max(10, M) + 10; and each sampled value is the result of an
independent `CRR_option_value` call at the matching step count. -/
theorem convergence_sampler_points (S0 K T r sigma : ℝ) (option_type : Char)
    (M : ℕ) (hM : 1 ≤ M) :
    (∀ i : ℕ, i < (convSteps M).length →
      (convSteps M)[i]? = some (10 * (i + 1))) ∧
    (∃ lastStep : ℕ, (convSteps M).getLast? = some lastStep ∧
      max 10 M ≤ lastStep ∧ lastStep < max 10 M + 10) ∧
    (∀ i : ℕ, (CRR_values S0 K T r sigma option_type M)[i]? =
      ((convSteps M)[i]?).map
        (fun m => (CRR_option_value S0 K T r sigma option_type m).1)) := by
  have h10 : 10 ≤ max 10 M := le_max_left 10 M
  have hn : convSteps M = List.range' 10 ((max 10 M + 9) / 10) 10 := by
    have harg : max 10 M + 10 - 10 + 10 - 1 = max 10 M + 9 := by omega
    unfold convSteps pyRange
    rw [harg]
  refine ⟨?_, ?_, ?_⟩
  · intro i hi
    rw [hn] at hi ⊢
    rw [List.length_range'] at hi
    rw [List.getElem?_range' _ _ hi]
    exact congrArg some (by omega)
  · have hn1 : 1 ≤ (max 10 M + 9) / 10 := by omega
    refine ⟨10 + 10 * ((max 10 M + 9) / 10 - 1), ?_, by omega, by omega⟩
    rw [hn, List.getLast?_eq_getElem?, List.length_range']
    exact List.getElem?_range' _ _ (by omega)
  · intro i
    unfold CRR_values
    exact List.getElem?_map _ _ _

theorem convergence_sampler_points_witness :
    1 ≤ 1 ∧
      ((∀ i : ℕ, i < (convSteps 1).length →
        (convSteps 1)[i]? = some (10 * (i + 1))) ∧
      (∃ lastStep : ℕ, (convSteps 1).getLast? = some lastStep ∧
        max 10 1 ≤ lastStep ∧ lastStep < max 10 1 + 10) ∧
      (∀ i : ℕ, (CRR_values 36 40 1 0 1 'P' 1)[i]? =
        ((convSteps 1)[i]?).map
          (fun m => (CRR_option_value 36 40 1 0 1 'P' m).1))) :=
  ⟨le_refl 1, convergence_sampler_points 36 40 1 0 1 'P' 1 (le_refl 1)⟩
